import Mathlib

/-!
Shallow embedding of the `intrico` quantum-circuit core.

The circuit builder and executor are translated from
`src/qsim_core/circuit.rs` (`QuantumCircuit`).  Rust panics (out-of-bounds
qubit indices, qubit-count mismatch on `execute`, arithmetic underflow in
`display`) are modelled by `Option`-valued functions returning `none`.

The gate vocabulary (`QuantumGate`, `GateOp`) and the per-qubit state type
(`Qubit`) live in `gate.rs` / `qubit.rs`, which are not part of the sources
at hand; they are modelled from the spec (sections 3 and 4.2) as noted on
each definition.
-/

namespace Intrico

/-- Modelled from the spec: amplitudes of a qubit state.  The spec leaves
the numeric representation open (a pair of complex amplitudes); all gate
matrix entries used here (1/√2, i, e^{iπ/4}) lie in the eighth cyclotomic
field ℚ(ζ₈), so an element `a + b·ζ + c·ζ² + d·ζ³` with rational
coefficients (ζ = e^{iπ/4}, ζ⁴ = -1) gives an exact, computable model. -/
structure Zeta8 where
  a : ℚ
  b : ℚ
  c : ℚ
  d : ℚ
  deriving DecidableEq, Repr

namespace Zeta8

def zero : Zeta8 := ⟨0, 0, 0, 0⟩

def one : Zeta8 := ⟨1, 0, 0, 0⟩

/-- The primitive eighth root of unity ζ = e^{iπ/4}. -/
def zeta : Zeta8 := ⟨0, 1, 0, 0⟩

/-- The imaginary unit i = ζ². -/
def iUnit : Zeta8 := ⟨0, 0, 1, 0⟩

/-- 1/√2 = (ζ - ζ³)/2. -/
def invSqrt2 : Zeta8 := ⟨0, 1/2, 0, -(1/2)⟩

def neg (x : Zeta8) : Zeta8 := ⟨-x.a, -x.b, -x.c, -x.d⟩

def add (x y : Zeta8) : Zeta8 := ⟨x.a + y.a, x.b + y.b, x.c + y.c, x.d + y.d⟩

/-- Multiplication in ℚ(ζ₈), using ζ⁴ = -1. -/
def mul (x y : Zeta8) : Zeta8 :=
  ⟨x.a * y.a - x.b * y.d - x.c * y.c - x.d * y.b,
   x.a * y.b + x.b * y.a - x.c * y.d - x.d * y.c,
   x.a * y.c + x.b * y.b + x.c * y.a - x.d * y.d,
   x.a * y.d + x.b * y.c + x.c * y.b + x.d * y.a⟩

end Zeta8

/-- Modelled from the spec: the seven supported primitive gates
(spec section 3, "Gate"). -/
inductive QuantumGate where
  | H
  | X
  | Y
  | Z
  | S
  | T
  | CNOT
  deriving DecidableEq, Repr

/-- Modelled from the spec: one qubit's quantum state, a pair of amplitudes
for |0⟩ and |1⟩, independent of all other qubits (spec section 3,
"Qubit (state)"). -/
structure Qubit where
  alpha : Zeta8
  beta : Zeta8
  deriving DecidableEq, Repr

/-- Modelled from the spec: the canonical |0⟩ initial state. -/
def Qubit.zero : Qubit := ⟨Zeta8.one, Zeta8.zero⟩

/-- Modelled from the spec: the single-qubit unitary transforms of
section 4.2.  CNOT, as applied target-qubit-only via `execute`, degrades
to the bit-flip (X) transform. -/
def Qubit.apply (q : Qubit) : QuantumGate → Qubit
  | QuantumGate.H =>
      ⟨(q.alpha.add q.beta).mul Zeta8.invSqrt2,
       (q.alpha.add q.beta.neg).mul Zeta8.invSqrt2⟩
  | QuantumGate.X => ⟨q.beta, q.alpha⟩
  | QuantumGate.Y => ⟨Zeta8.iUnit.neg.mul q.beta, Zeta8.iUnit.mul q.alpha⟩
  | QuantumGate.Z => ⟨q.alpha, q.beta.neg⟩
  | QuantumGate.S => ⟨q.alpha, Zeta8.iUnit.mul q.beta⟩
  | QuantumGate.T => ⟨q.alpha, Zeta8.zeta.mul q.beta⟩
  | QuantumGate.CNOT => ⟨q.beta, q.alpha⟩

/-- Modelled from the spec: one recorded gate application (spec section 3,
"Operation"): a gate, an optional control index, a target index and a
per-target step number. -/
structure GateOp where
  gate : QuantumGate
  control : Option ℕ
  target : ℕ
  step : ℕ
  deriving DecidableEq, Repr

/-- Modelled from the spec: `GateOp::new(gate, target, step)`, an
uncontrolled operation (`control = None`). -/
def GateOp.new (gate : QuantumGate) (target step : ℕ) : GateOp :=
  ⟨gate, none, target, step⟩

/-- Modelled from the spec: `GateOp::controlled(gate, control, target,
step)`, a controlled operation (`control = Some control`). -/
def GateOp.controlled (gate : QuantumGate) (control target step : ℕ) : GateOp :=
  ⟨gate, some control, target, step⟩

/-- `QuantumCircuit` from `circuit.rs`: a fixed qubit count and the
insertion-ordered list of recorded operations. -/
structure QuantumCircuit where
  num_qubits : ℕ
  operations : List GateOp
  deriving DecidableEq, Repr

/-- `QuantumCircuit::new`: an empty circuit on `num_qubits` qubits. -/
def QuantumCircuit.new (num_qubits : ℕ) : QuantumCircuit :=
  ⟨num_qubits, []⟩

/-- The step values of the operations whose target equals `target`, in
append order (`operations.iter().filter(|op| op.target == target).map(|op| op.step)`). -/
def stepsOn (ops : List GateOp) (target : ℕ) : List ℕ :=
  (ops.filter (fun op => op.target == target)).map (fun op => op.step)

/-- The step-assignment scan shared by `add_gate` and `cnot`:
`.max().map(|s| s + 1).unwrap_or(0)` over the filtered steps. -/
def nextStep (ops : List GateOp) (target : ℕ) : ℕ :=
  match (stepsOn ops target).max? with
  | none => 0
  | some m => m + 1

/-- `QuantumCircuit::add_gate`: panics (`none`) when the target is out of
bounds, otherwise pushes one uncontrolled operation stamped with the
scanned step. -/
def QuantumCircuit.add_gate (qc : QuantumCircuit) (gate : QuantumGate)
    (target : ℕ) : Option QuantumCircuit :=
  if target ≥ qc.num_qubits then none
  else some ⟨qc.num_qubits,
    qc.operations ++ [GateOp.new gate target (nextStep qc.operations target)]⟩

/-- `QuantumCircuit::h`. -/
def QuantumCircuit.h (qc : QuantumCircuit) (target : ℕ) : Option QuantumCircuit :=
  qc.add_gate QuantumGate.H target

/-- `QuantumCircuit::x`. -/
def QuantumCircuit.x (qc : QuantumCircuit) (target : ℕ) : Option QuantumCircuit :=
  qc.add_gate QuantumGate.X target

/-- `QuantumCircuit::y`. -/
def QuantumCircuit.y (qc : QuantumCircuit) (target : ℕ) : Option QuantumCircuit :=
  qc.add_gate QuantumGate.Y target

/-- `QuantumCircuit::z`. -/
def QuantumCircuit.z (qc : QuantumCircuit) (target : ℕ) : Option QuantumCircuit :=
  qc.add_gate QuantumGate.Z target

/-- `QuantumCircuit::s`. -/
def QuantumCircuit.s (qc : QuantumCircuit) (target : ℕ) : Option QuantumCircuit :=
  qc.add_gate QuantumGate.S target

/-- `QuantumCircuit::t`. -/
def QuantumCircuit.t (qc : QuantumCircuit) (target : ℕ) : Option QuantumCircuit :=
  qc.add_gate QuantumGate.T target

/-- `QuantumCircuit::cnot`: panics (`none`) when either index is out of
bounds, otherwise pushes one controlled CNOT operation whose step is
scanned over the target's timeline only. -/
def QuantumCircuit.cnot (qc : QuantumCircuit) (control target : ℕ) :
    Option QuantumCircuit :=
  if control ≥ qc.num_qubits ∨ target ≥ qc.num_qubits then none
  else some ⟨qc.num_qubits,
    qc.operations ++
      [GateOp.controlled QuantumGate.CNOT control target
        (nextStep qc.operations target)]⟩

/-- The replay loop of `execute`: `for op in &self.operations {
qubits[op.target].apply(op.gate); }`.  The indexing `qubits[op.target]`
panics (`none`) when the target is out of bounds. -/
def runOps : List GateOp → List Qubit → Option (List Qubit)
  | [], qs => some qs
  | op :: rest, qs =>
    match qs[op.target]? with
    | none => none
    | some q => runOps rest (qs.set op.target (q.apply op.gate))

/-- `QuantumCircuit::execute`: panics (`none`) when the supplied state
array's length differs from `num_qubits`; the length check precedes the
replay loop. -/
def QuantumCircuit.execute (qc : QuantumCircuit) (qs : List Qubit) :
    Option (List Qubit) :=
  if qs.length ≠ qc.num_qubits then none
  else runOps qc.operations qs

/-- `QuantumCircuit::num_operations`. -/
def QuantumCircuit.num_operations (qc : QuantumCircuit) : ℕ :=
  qc.operations.length

/-- `QuantumCircuit::display`: computes `height = 2 * num_qubits - 1` in
unsigned arithmetic (aborting on underflow, modelled as `none`), builds
`height` empty lines and prints them; the buffer is never populated. -/
def QuantumCircuit.display (qc : QuantumCircuit) : Option (List String) :=
  if 2 * qc.num_qubits < 1 then none
  else some (List.replicate (2 * qc.num_qubits - 1) "")

/-- One call to a public builder method. -/
inductive BuilderCall where
  | h (target : ℕ)
  | x (target : ℕ)
  | y (target : ℕ)
  | z (target : ℕ)
  | s (target : ℕ)
  | t (target : ℕ)
  | cnot (control target : ℕ)
  deriving DecidableEq, Repr

/-- Dispatch one builder call on a circuit. -/
def applyCall (qc : QuantumCircuit) : BuilderCall → Option QuantumCircuit
  | BuilderCall.h q => qc.h q
  | BuilderCall.x q => qc.x q
  | BuilderCall.y q => qc.y q
  | BuilderCall.z q => qc.z q
  | BuilderCall.s q => qc.s q
  | BuilderCall.t q => qc.t q
  | BuilderCall.cnot c q => qc.cnot c q

/-- Run a sequence of builder calls; a panic (`none`) aborts the run. -/
def runCalls : List BuilderCall → QuantumCircuit → Option QuantumCircuit
  | [], qc => some qc
  | call :: rest, qc =>
    match applyCall qc call with
    | none => none
    | some qc' => runCalls rest qc'

/-- All qubit indices of a builder call are below `n`. -/
def callOk (n : ℕ) : BuilderCall → Bool
  | BuilderCall.h q | BuilderCall.x q | BuilderCall.y q | BuilderCall.z q
  | BuilderCall.s q | BuilderCall.t q => decide (q < n)
  | BuilderCall.cnot c q => decide (c < n) && decide (q < n)

/-- The number of operations whose target equals `target`. -/
def targetCount (ops : List GateOp) (target : ℕ) : ℕ :=
  (ops.filter (fun op => op.target == target)).length

/-- Per-target step invariant: on every target's timeline the recorded
steps, in append order, are exactly `0, 1, 2, …`. -/
def StepInv (ops : List GateOp) : Prop :=
  ∀ tq : ℕ, stepsOn ops tq = List.range (targetCount ops tq)

/-- Bounds invariant: every recorded operation addresses qubits below
`num_qubits`. -/
def CircuitWF (qc : QuantumCircuit) : Prop :=
  ∀ op ∈ qc.operations, op.target < qc.num_qubits ∧
    ∀ c : ℕ, op.control = some c → c < qc.num_qubits

/-- The fields of an operation that `execute` reads: gate and target. -/
def opKey (op : GateOp) : QuantumGate × ℕ :=
  (op.gate, op.target)

example : nextStep [GateOp.new QuantumGate.H 0 0] 0 = 1 := by decide
example : nextStep [GateOp.new QuantumGate.H 0 0] 1 = 0 := by decide
example : (QuantumCircuit.new 1).h 0 =
    some ⟨1, [GateOp.new QuantumGate.H 0 0]⟩ := by decide
example : (QuantumCircuit.new 1).execute [Qubit.zero] =
    some [Qubit.zero] := by decide

/-! ### Shared lemmas -/

theorem max?_push (xs : List ℕ) (m : ℕ) :
    (xs ++ [m]).max? = some (xs.max?.elim m (fun k => max k m)) := by
  induction xs with
  | nil => rfl
  | cons x xs ih =>
    rw [List.cons_append, List.max?_cons, ih, List.max?_cons]
    cases hx : xs.max? with
    | none => simp
    | some k => simp [Nat.max_assoc]

theorem range_max? (k : ℕ) : (List.range (k + 1)).max? = some k := by
  induction k with
  | zero => rfl
  | succ k ih =>
    rw [List.range_succ, max?_push, ih]
    simp [Nat.max_eq_right (Nat.le_succ k)]

theorem stepsOn_append (ops ops' : List GateOp) (tq : ℕ) :
    stepsOn (ops ++ ops') tq = stepsOn ops tq ++ stepsOn ops' tq := by
  simp [stepsOn, List.filter_append]

theorem targetCount_append (ops ops' : List GateOp) (tq : ℕ) :
    targetCount (ops ++ ops') tq = targetCount ops tq + targetCount ops' tq := by
  simp [targetCount, List.filter_append]

theorem stepsOn_single (op : GateOp) (tq : ℕ) :
    stepsOn [op] tq = if op.target = tq then [op.step] else [] := by
  by_cases hc : op.target = tq <;> simp [stepsOn, hc]

theorem targetCount_single (op : GateOp) (tq : ℕ) :
    targetCount [op] tq = if op.target = tq then 1 else 0 := by
  by_cases hc : op.target = tq <;> simp [targetCount, hc]

theorem nextStep_eq_targetCount {ops : List GateOp} {tq : ℕ}
    (h : stepsOn ops tq = List.range (targetCount ops tq)) :
    nextStep ops tq = targetCount ops tq := by
  unfold nextStep
  rw [h]
  cases hk : targetCount ops tq with
  | zero => rfl
  | succ k => rw [range_max?]

theorem stepInv_push {ops : List GateOp} {op : GateOp}
    (hstep : op.step = nextStep ops op.target) (h : StepInv ops) :
    StepInv (ops ++ [op]) := by
  intro tq
  rw [stepsOn_append, targetCount_append, stepsOn_single, targetCount_single]
  by_cases hc : op.target = tq
  · subst hc
    rw [h op.target, hstep, nextStep_eq_targetCount (h op.target)]
    simp [List.range_succ]
  · simp [hc, h tq]

theorem nextStep_push_ne {ops : List GateOp} {op : GateOp} {tq : ℕ}
    (hne : op.target ≠ tq) :
    nextStep (ops ++ [op]) tq = nextStep ops tq := by
  unfold nextStep
  rw [stepsOn_append, stepsOn_single, if_neg hne, List.append_nil]

theorem add_gate_eq_some {qc qc' : QuantumCircuit} {g : QuantumGate} {tq : ℕ}
    (h : qc.add_gate g tq = some qc') :
    tq < qc.num_qubits ∧
    qc' = ⟨qc.num_qubits,
      qc.operations ++ [GateOp.new g tq (nextStep qc.operations tq)]⟩ := by
  unfold QuantumCircuit.add_gate at h
  split at h
  · exact absurd h (by simp)
  · next hge => exact ⟨Nat.lt_of_not_le hge, (Option.some.injEq _ _ ▸ h).symm⟩

theorem add_gate_eq_none (qc : QuantumCircuit) (g : QuantumGate) (tq : ℕ) :
    qc.add_gate g tq = none ↔ qc.num_qubits ≤ tq := by
  by_cases hc : tq ≥ qc.num_qubits <;> simp [QuantumCircuit.add_gate, hc]

theorem cnot_eq_some {qc qc' : QuantumCircuit} {c tq : ℕ}
    (h : qc.cnot c tq = some qc') :
    c < qc.num_qubits ∧ tq < qc.num_qubits ∧
    qc' = ⟨qc.num_qubits,
      qc.operations ++
        [GateOp.controlled QuantumGate.CNOT c tq (nextStep qc.operations tq)]⟩ := by
  unfold QuantumCircuit.cnot at h
  split at h
  · exact absurd h (by simp)
  · next hge =>
    push_neg at hge
    exact ⟨hge.1, hge.2, (Option.some.injEq _ _ ▸ h).symm⟩

theorem cnot_eq_none (qc : QuantumCircuit) (c tq : ℕ) :
    qc.cnot c tq = none ↔ qc.num_qubits ≤ c ∨ qc.num_qubits ≤ tq := by
  by_cases hc : c ≥ qc.num_qubits ∨ tq ≥ qc.num_qubits <;>
    simp [QuantumCircuit.cnot, hc]

theorem applyCall_eq_some {qc qc' : QuantumCircuit} {call : BuilderCall}
    (h : applyCall qc call = some qc') :
    qc'.num_qubits = qc.num_qubits ∧
    ∃ op : GateOp, qc'.operations = qc.operations ++ [op] ∧
      op.step = nextStep qc.operations op.target ∧
      op.target < qc.num_qubits ∧
      ∀ c : ℕ, op.control = some c → c < qc.num_qubits := by
  cases call with
  | cnot c q =>
    obtain ⟨hc, hq, rfl⟩ := cnot_eq_some h
    refine ⟨rfl, _, rfl, rfl, hq, fun c' hc' => ?_⟩
    simp only [GateOp.controlled, Option.some.injEq] at hc'
    exact hc' ▸ hc
  | h q =>
    obtain ⟨hq, rfl⟩ := add_gate_eq_some h
    exact ⟨rfl, _, rfl, rfl, hq, fun c' hc' => by simp [GateOp.new] at hc'⟩
  | x q =>
    obtain ⟨hq, rfl⟩ := add_gate_eq_some h
    exact ⟨rfl, _, rfl, rfl, hq, fun c' hc' => by simp [GateOp.new] at hc'⟩
  | y q =>
    obtain ⟨hq, rfl⟩ := add_gate_eq_some h
    exact ⟨rfl, _, rfl, rfl, hq, fun c' hc' => by simp [GateOp.new] at hc'⟩
  | z q =>
    obtain ⟨hq, rfl⟩ := add_gate_eq_some h
    exact ⟨rfl, _, rfl, rfl, hq, fun c' hc' => by simp [GateOp.new] at hc'⟩
  | s q =>
    obtain ⟨hq, rfl⟩ := add_gate_eq_some h
    exact ⟨rfl, _, rfl, rfl, hq, fun c' hc' => by simp [GateOp.new] at hc'⟩
  | t q =>
    obtain ⟨hq, rfl⟩ := add_gate_eq_some h
    exact ⟨rfl, _, rfl, rfl, hq, fun c' hc' => by simp [GateOp.new] at hc'⟩

theorem applyCall_total {qc : QuantumCircuit} {call : BuilderCall}
    (hok : callOk qc.num_qubits call = true) :
    ∃ qcm, applyCall qc call = some qcm := by
  cases call with
  | cnot c q =>
    simp only [callOk, Bool.and_eq_true, decide_eq_true_eq] at hok
    exact ⟨_, if_neg (fun hor =>
      hor.elim (Nat.not_le.mpr hok.1) (Nat.not_le.mpr hok.2))⟩
  | h q =>
    simp only [callOk, decide_eq_true_eq] at hok
    exact ⟨_, if_neg (Nat.not_le.mpr hok)⟩
  | x q =>
    simp only [callOk, decide_eq_true_eq] at hok
    exact ⟨_, if_neg (Nat.not_le.mpr hok)⟩
  | y q =>
    simp only [callOk, decide_eq_true_eq] at hok
    exact ⟨_, if_neg (Nat.not_le.mpr hok)⟩
  | z q =>
    simp only [callOk, decide_eq_true_eq] at hok
    exact ⟨_, if_neg (Nat.not_le.mpr hok)⟩
  | s q =>
    simp only [callOk, decide_eq_true_eq] at hok
    exact ⟨_, if_neg (Nat.not_le.mpr hok)⟩
  | t q =>
    simp only [callOk, decide_eq_true_eq] at hok
    exact ⟨_, if_neg (Nat.not_le.mpr hok)⟩

theorem runCalls_eq_some {calls : List BuilderCall} {qc qc' : QuantumCircuit}
    (h : runCalls calls qc = some qc') :
    qc'.num_qubits = qc.num_qubits ∧
    qc'.operations.length = qc.operations.length + calls.length ∧
    (StepInv qc.operations → StepInv qc'.operations) ∧
    (CircuitWF qc → CircuitWF qc') := by
  induction calls generalizing qc with
  | nil =>
    obtain rfl : qc = qc' := Option.some.inj h
    exact ⟨rfl, rfl, id, id⟩
  | cons call rest ih =>
    simp only [runCalls] at h
    cases happly : applyCall qc call with
    | none => rw [happly] at h; cases h
    | some qcm =>
      rw [happly] at h
      obtain ⟨hn, hlen, hstep, hwf⟩ := ih h
      obtain ⟨hn', op, hops, hop_step, hop_t, hop_c⟩ := applyCall_eq_some happly
      refine ⟨hn.trans hn', ?_, ?_, ?_⟩
      · rw [hlen, hops]
        simp [Nat.add_assoc, Nat.add_comm 1]
      · intro hsi
        apply hstep
        rw [hops]
        exact stepInv_push hop_step hsi
      · intro hw
        apply hwf
        intro op' hmem
        rw [hn']
        rw [hops] at hmem
        rcases List.mem_append.mp hmem with hmem' | hmem'
        · exact hw op' hmem'
        · obtain rfl := List.mem_singleton.mp hmem'
          exact ⟨hop_t, hop_c⟩

theorem runCalls_total {calls : List BuilderCall} {qc : QuantumCircuit}
    (hok : ∀ call ∈ calls, callOk qc.num_qubits call = true) :
    ∃ qc', runCalls calls qc = some qc' := by
  induction calls generalizing qc with
  | nil => exact ⟨qc, rfl⟩
  | cons call rest ih =>
    obtain ⟨qcm, hm⟩ := applyCall_total (hok call (List.mem_cons_self call rest))
    obtain ⟨hn, -⟩ := applyCall_eq_some hm
    obtain ⟨qc', hrest⟩ :=
      @ih qcm (fun cl hcl => by
        rw [hn]; exact hok cl (List.mem_cons_of_mem _ hcl))
    refine ⟨qc', ?_⟩
    simp only [runCalls, hm]
    exact hrest

theorem runOps_length {ops : List GateOp} {qs out : List Qubit}
    (h : runOps ops qs = some out) : out.length = qs.length := by
  induction ops generalizing qs with
  | nil => obtain rfl := Option.some.inj h; rfl
  | cons op rest ih =>
    simp only [runOps] at h
    cases hg : qs[op.target]? with
    | none => rw [hg] at h; cases h
    | some q =>
      rw [hg] at h
      rw [ih h, List.length_set]

theorem runOps_total {ops : List GateOp} {qs : List Qubit}
    (h : ∀ op ∈ ops, op.target < qs.length) :
    ∃ out, runOps ops qs = some out := by
  induction ops generalizing qs with
  | nil => exact ⟨qs, rfl⟩
  | cons op rest ih =>
    have ht : op.target < qs.length := h op (List.mem_cons_self op rest)
    obtain ⟨out, hout⟩ :=
      @ih (qs.set op.target ((qs.get ⟨op.target, ht⟩).apply op.gate))
        (fun op' hm => by
          rw [List.length_set]; exact h op' (List.mem_cons_of_mem _ hm))
    refine ⟨out, ?_⟩
    simp only [runOps, List.getElem?_eq_getElem ht]
    exact hout

theorem runOps_frame {ops : List GateOp} {qs out : List Qubit}
    (h : runOps ops qs = some out) (i : ℕ)
    (hi : ∀ op ∈ ops, op.target ≠ i) :
    out[i]? = qs[i]? := by
  induction ops generalizing qs with
  | nil => obtain rfl := Option.some.inj h; rfl
  | cons op rest ih =>
    simp only [runOps] at h
    cases hg : qs[op.target]? with
    | none => rw [hg] at h; cases h
    | some q =>
      rw [hg] at h
      rw [ih h (fun op' hm => hi op' (List.mem_cons_of_mem _ hm)),
        List.getElem?_set_ne (hi op (List.mem_cons_self op rest))]

theorem runOps_congr_key {ops₁ ops₂ : List GateOp} (qs : List Qubit)
    (h : ops₁.map opKey = ops₂.map opKey) :
    runOps ops₁ qs = runOps ops₂ qs := by
  induction ops₁ generalizing ops₂ qs with
  | nil =>
    cases ops₂ with
    | nil => rfl
    | cons op₂ rest₂ => simp at h
  | cons op rest ih =>
    cases ops₂ with
    | nil => simp at h
    | cons op₂ rest₂ =>
      simp only [List.map_cons, List.cons.injEq, opKey, Prod.mk.injEq] at h
      obtain ⟨⟨hg, ht⟩, hrest⟩ := h
      simp only [runOps, ht, hg]
      cases hq : qs[op₂.target]? with
      | none => rfl
      | some q => exact ih _ hrest

/-! ### Claim theorems -/

/-- C1: every builder call stamps its new operation with the per-target
scan `nextStep` (maximum existing step on the call's target plus one, or 0
when the target has no operations), and consequently, on every circuit
reachable through the public builder methods, the step values of the
operations on each target, in append order, are exactly `0, 1, 2, …` with
no gaps or repeats. -/
theorem per_target_step_assignment (n : ℕ) (calls : List BuilderCall)
    (qc' : QuantumCircuit)
    (hrun : runCalls calls (QuantumCircuit.new n) = some qc') :
    (∀ tq, qc'.h tq = qc'.add_gate QuantumGate.H tq ∧
      qc'.x tq = qc'.add_gate QuantumGate.X tq ∧
      qc'.y tq = qc'.add_gate QuantumGate.Y tq ∧
      qc'.z tq = qc'.add_gate QuantumGate.Z tq ∧
      qc'.s tq = qc'.add_gate QuantumGate.S tq ∧
      qc'.t tq = qc'.add_gate QuantumGate.T tq) ∧
    (∀ g tq qc'', qc'.add_gate g tq = some qc'' →
      qc''.operations =
        qc'.operations ++ [GateOp.new g tq (nextStep qc'.operations tq)]) ∧
    (∀ c tq qc'', qc'.cnot c tq = some qc'' →
      qc''.operations =
        qc'.operations ++
          [GateOp.controlled QuantumGate.CNOT c tq (nextStep qc'.operations tq)]) ∧
    (∀ tq, stepsOn qc'.operations tq =
      List.range (targetCount qc'.operations tq)) := by
  refine ⟨fun tq => ⟨rfl, rfl, rfl, rfl, rfl, rfl⟩, ?_, ?_, ?_⟩
  · intro g tq qc'' hadd
    rw [(add_gate_eq_some hadd).2]
  · intro c tq qc'' hcnot
    rw [(cnot_eq_some hcnot).2.2]
  · exact (runCalls_eq_some hrun).2.2.1 (fun tq => rfl)

/-- C1 witness: running `h(0)` on a fresh one-qubit circuit, the sole
target's step list is exactly `range 1 = [0]`. -/
theorem per_target_step_assignment_witness :
    stepsOn [GateOp.new QuantumGate.H 0 0] 0 =
      List.range (targetCount [GateOp.new QuantumGate.H 0 0] 0) :=
  (per_target_step_assignment 1 [BuilderCall.h 0]
    ⟨1, [GateOp.new QuantumGate.H 0 0]⟩ rfl).2.2.2 0

/-- C2: with a matching-length state array on a bounds-respecting circuit,
`execute` succeeds and is a left-to-right replay that touches only each
operation's target index: indices never targeted keep their state, the
result depends only on each operation's gate and target (the `control` and
`step` fields are never read), and each single step rewrites exactly
`qubit_states[target]` to its gate transform. -/
theorem execute_applies_to_target_only (qc : QuantumCircuit) (qs : List Qubit)
    (hlen : qs.length = qc.num_qubits)
    (hwf : ∀ op ∈ qc.operations, op.target < qc.num_qubits) :
    qc.execute qs ≠ none ∧
    (∀ out, qc.execute qs = some out →
      out.length = qs.length ∧
      (∀ i, (∀ op ∈ qc.operations, op.target ≠ i) → out[i]? = qs[i]?) ∧
      (∀ ops₂ : List GateOp, ops₂.map opKey = qc.operations.map opKey →
        QuantumCircuit.execute ⟨qc.num_qubits, ops₂⟩ qs = some out)) ∧
    (∀ (op : GateOp) (qs₁ : List Qubit) (q : Qubit), qs₁[op.target]? = some q →
      runOps [op] qs₁ = some (qs₁.set op.target (q.apply op.gate))) := by
  have hexec : qc.execute qs = runOps qc.operations qs := by
    simp [QuantumCircuit.execute, hlen]
  obtain ⟨out, hout⟩ :=
    @runOps_total qc.operations qs (fun op hm => hlen ▸ hwf op hm)
  refine ⟨by rw [hexec, hout]; simp, ?_, ?_⟩
  · intro out' hout'
    refine ⟨runOps_length (hexec ▸ hout'), fun i hi =>
      runOps_frame (hexec ▸ hout') i hi, ?_⟩
    intro ops₂ hk
    rw [← hout', hexec]
    show QuantumCircuit.execute ⟨qc.num_qubits, ops₂⟩ qs =
      runOps qc.operations qs
    rw [QuantumCircuit.execute, if_neg (not_ne_iff.mpr hlen)]
    exact runOps_congr_key qs hk
  · intro op qs₁ q hq
    simp [runOps, hq]

/-- C2 witness: on a one-qubit circuit holding a single Hadamard
operation, `execute` on a matching-length zero state does not fail. -/
theorem execute_applies_to_target_only_witness :
    QuantumCircuit.execute ⟨1, [GateOp.new QuantumGate.H 0 0]⟩ [Qubit.zero] ≠
      none :=
  (execute_applies_to_target_only ⟨1, [GateOp.new QuantumGate.H 0 0]⟩
    [Qubit.zero] rfl (by decide)).1

/-- C3 counterexample: `cnot(0, 0)` on a one-qubit circuit succeeds and
targets its own control qubit, so the control qubit's step counter IS
advanced by the call: a subsequent gate on qubit 0 receives step 1,
whereas had the cnot not occurred it would have received step 0. -/
theorem cnot_control_step_counterexample :
    (QuantumCircuit.new 1).cnot 0 0 =
      some ⟨1, [GateOp.controlled QuantumGate.CNOT 0 0 0]⟩ ∧
    QuantumCircuit.add_gate ⟨1, [GateOp.controlled QuantumGate.CNOT 0 0 0]⟩
      QuantumGate.H 0 =
      some ⟨1, [GateOp.controlled QuantumGate.CNOT 0 0 0,
        GateOp.new QuantumGate.H 0 1]⟩ ∧
    (QuantumCircuit.new 1).add_gate QuantumGate.H 0 =
      some ⟨1, [GateOp.new QuantumGate.H 0 0]⟩ := by
  refine ⟨rfl, ?_, rfl⟩
  decide

/-- C3 (amended): `cnot(control, target)` with in-bounds indices appends
exactly one operation with gate CNOT, `control = some control` and the
given target, its step scanned over operations matching the target only;
and when `control ≠ target`, the control qubit's step counter is not
advanced by the call. -/
theorem cnot_appends_target_step (qc : QuantumCircuit) (c tq : ℕ)
    (hc : c < qc.num_qubits) (ht : tq < qc.num_qubits) :
    qc.cnot c tq =
      some ⟨qc.num_qubits,
        qc.operations ++
          [GateOp.controlled QuantumGate.CNOT c tq
            (nextStep qc.operations tq)]⟩ ∧
    (c ≠ tq →
      nextStep (qc.operations ++
        [GateOp.controlled QuantumGate.CNOT c tq
          (nextStep qc.operations tq)]) c =
      nextStep qc.operations c) := by
  refine ⟨if_neg (fun hor =>
    hor.elim (Nat.not_le.mpr hc) (Nat.not_le.mpr ht)), fun hne => ?_⟩
  exact nextStep_push_ne (fun heq => hne heq.symm)

/-- C3 witness: `cnot(0, 1)` on a fresh two-qubit circuit appends one
controlled operation and leaves qubit 0's step counter untouched. -/
theorem cnot_appends_target_step_witness :
    (QuantumCircuit.new 2).cnot 0 1 =
      some ⟨2, (QuantumCircuit.new 2).operations ++
        [GateOp.controlled QuantumGate.CNOT 0 1
          (nextStep (QuantumCircuit.new 2).operations 1)]⟩ ∧
    ((0 : ℕ) ≠ 1 →
      nextStep ((QuantumCircuit.new 2).operations ++
        [GateOp.controlled QuantumGate.CNOT 0 1
          (nextStep (QuantumCircuit.new 2).operations 1)]) 0 =
      nextStep (QuantumCircuit.new 2).operations 0) :=
  cnot_appends_target_step (QuantumCircuit.new 2) 0 1 (by decide) (by decide)

/-- C4: on a bounds-respecting circuit, `execute` fails exactly when the
supplied state array's length differs from `num_qubits`; the length check
precedes the replay, so a mismatch aborts with no state produced, while a
match performs the whole replay. -/
theorem execute_length_check (qc : QuantumCircuit) (qs : List Qubit)
    (hwf : ∀ op ∈ qc.operations, op.target < qc.num_qubits) :
    (qc.execute qs = none ↔ qs.length ≠ qc.num_qubits) ∧
    (qs.length = qc.num_qubits →
      qc.execute qs = runOps qc.operations qs ∧
      runOps qc.operations qs ≠ none) := by
  have hrun : qs.length = qc.num_qubits → runOps qc.operations qs ≠ none := by
    intro hlen
    obtain ⟨out, hout⟩ :=
      @runOps_total qc.operations qs (fun op hm => hlen ▸ hwf op hm)
    simp [hout]
  refine ⟨⟨?_, ?_⟩, fun hlen => ⟨by simp [QuantumCircuit.execute, hlen],
    hrun hlen⟩⟩
  · intro hnone
    by_contra hlen
    rw [QuantumCircuit.execute, if_neg (not_ne_iff.mpr hlen)] at hnone
    exact hrun hlen hnone
  · intro hne
    simp [QuantumCircuit.execute, hne]

/-- C4 witness: a one-qubit circuit executed against an empty state array
fails the length check. -/
theorem execute_length_check_witness :
    QuantumCircuit.execute ⟨1, [GateOp.new QuantumGate.H 0 0]⟩ [] = none :=
  (execute_length_check ⟨1, [GateOp.new QuantumGate.H 0 0]⟩ []
    (by decide)).1.mpr (by decide)

/-- C5: each single-qubit builder call delegates to `add_gate`, which
fails exactly when its target is out of bounds; `cnot` fails exactly when
control or target is out of bounds; and every successful call appends
exactly one operation at the end of the list (a failing call is rejected
before any append). -/
theorem builder_validation (qc : QuantumCircuit) (g : QuantumGate)
    (c tq : ℕ) :
    (qc.h tq = qc.add_gate QuantumGate.H tq ∧
      qc.x tq = qc.add_gate QuantumGate.X tq ∧
      qc.y tq = qc.add_gate QuantumGate.Y tq ∧
      qc.z tq = qc.add_gate QuantumGate.Z tq ∧
      qc.s tq = qc.add_gate QuantumGate.S tq ∧
      qc.t tq = qc.add_gate QuantumGate.T tq) ∧
    (qc.add_gate g tq = none ↔ qc.num_qubits ≤ tq) ∧
    (qc.cnot c tq = none ↔ qc.num_qubits ≤ c ∨ qc.num_qubits ≤ tq) ∧
    (∀ qc', qc.add_gate g tq = some qc' →
      qc'.operations =
        qc.operations ++ [GateOp.new g tq (nextStep qc.operations tq)]) ∧
    (∀ qc', qc.cnot c tq = some qc' →
      qc'.operations =
        qc.operations ++
          [GateOp.controlled QuantumGate.CNOT c tq
            (nextStep qc.operations tq)]) := by
  refine ⟨⟨rfl, rfl, rfl, rfl, rfl, rfl⟩, add_gate_eq_none qc g tq,
    cnot_eq_none qc c tq, ?_, ?_⟩
  · intro qc' hadd
    rw [(add_gate_eq_some hadd).2]
  · intro qc' hcnot
    rw [(cnot_eq_some hcnot).2.2]

/-- C5 witness: on a one-qubit circuit, `add_gate` at target 1 fails. -/
theorem builder_validation_witness :
    (QuantumCircuit.new 1).add_gate QuantumGate.H 1 = none :=
  (builder_validation (QuantumCircuit.new 1) QuantumGate.H 0 1).2.1.mpr
    (by decide)

/-- C6: for `n ≥ 1` and any builder-call sequence whose indices are all
below `n`, every call succeeds, `num_operations` equals the number of
successful calls, and every recorded operation has `target < num_qubits`
and, when present, `control < num_qubits`. -/
theorem builder_count_bounds (n : ℕ) (calls : List BuilderCall)
    (_hn : 1 ≤ n) (hok : ∀ call ∈ calls, callOk n call = true) :
    runCalls calls (QuantumCircuit.new n) ≠ none ∧
    (∀ qc', runCalls calls (QuantumCircuit.new n) = some qc' →
      qc'.num_operations = calls.length ∧ CircuitWF qc') := by
  obtain ⟨qc', hrun⟩ := @runCalls_total calls (QuantumCircuit.new n) hok
  refine ⟨by simp [hrun], fun qc'' hrun' => ?_⟩
  obtain ⟨hnq, hlen, hstep, hwf⟩ := runCalls_eq_some hrun'
  refine ⟨?_, hwf (fun op hmem => absurd hmem (List.not_mem_nil op))⟩
  simpa [QuantumCircuit.num_operations, QuantumCircuit.new] using hlen

/-- C6 witness: one successful call on a one-qubit circuit yields exactly
one recorded operation. -/
theorem builder_count_bounds_witness :
    QuantumCircuit.num_operations ⟨1, [GateOp.new QuantumGate.H 0 0]⟩ = 1 :=
  ((builder_count_bounds 1 [BuilderCall.h 0] (by decide) (by decide)).2
    ⟨1, [GateOp.new QuantumGate.H 0 0]⟩ rfl).1

/-- C7: execution is deterministic — replaying a circuit against two
independently freshly-zeroed state arrays of matching length yields
identical final states (the replay is pure: no branching, no randomness,
no dependency on any control qubit's value). -/
theorem execute_deterministic (qc : QuantumCircuit) (qs₁ qs₂ : List Qubit)
    (h₁ : qs₁ = List.replicate qc.num_qubits Qubit.zero)
    (h₂ : qs₂ = List.replicate qc.num_qubits Qubit.zero) :
    qc.execute qs₁ = qc.execute qs₂ := by
  subst h₁
  subst h₂
  rfl

/-- C7 witness: two runs of a Hadamard circuit on fresh zero states
agree. -/
theorem execute_deterministic_witness :
    QuantumCircuit.execute ⟨1, [GateOp.new QuantumGate.H 0 0]⟩ [Qubit.zero] =
      QuantumCircuit.execute ⟨1, [GateOp.new QuantumGate.H 0 0]⟩
        [Qubit.zero] :=
  execute_deterministic ⟨1, [GateOp.new QuantumGate.H 0 0]⟩
    [Qubit.zero] [Qubit.zero] rfl rfl

/-- C8: a circuit with zero recorded operations, executed against any
state array of matching length, returns every qubit state unchanged; in
particular a 0-qubit circuit executed on the empty array succeeds
trivially. -/
theorem execute_noop (qc : QuantumCircuit) (qs : List Qubit)
    (hops : qc.operations = []) (hlen : qs.length = qc.num_qubits) :
    qc.execute qs = some qs ∧
    (QuantumCircuit.new 0).execute [] = some [] := by
  refine ⟨?_, rfl⟩
  simp [QuantumCircuit.execute, hlen, hops, runOps]

/-- C8 witness: the empty two-qubit circuit leaves a two-qubit zero state
array unchanged. -/
theorem execute_noop_witness :
    QuantumCircuit.execute (QuantumCircuit.new 2) [Qubit.zero, Qubit.zero] =
      some [Qubit.zero, Qubit.zero] ∧
    (QuantumCircuit.new 0).execute [] = some [] :=
  execute_noop (QuantumCircuit.new 2) [Qubit.zero, Qubit.zero] rfl rfl

/-- C9: any builder call with an index at or beyond `num_qubits` fails,
and the replay's per-target indexing fails on an out-of-bounds target; but
on every circuit reachable through the public builder methods, executed
against a matching-length state array, every `qubit_states[op.target]`
access is in bounds, so `execute`'s out-of-bounds path is unreachable. -/
theorem execute_inbounds (n : ℕ) (calls : List BuilderCall)
    (qc' : QuantumCircuit)
    (hrun : runCalls calls (QuantumCircuit.new n) = some qc') :
    (∀ g tq, n ≤ tq → qc'.add_gate g tq = none) ∧
    (∀ c tq, n ≤ c ∨ n ≤ tq → qc'.cnot c tq = none) ∧
    (∀ (op : GateOp) (qs : List Qubit), qs.length ≤ op.target →
      runOps [op] qs = none) ∧
    (∀ qs : List Qubit, qs.length = n → qc'.execute qs ≠ none) := by
  obtain ⟨hnq, hlen, hstep, hwf⟩ := runCalls_eq_some hrun
  have hn2 : qc'.num_qubits = n := hnq
  have hwf' : CircuitWF qc' :=
    hwf (fun op hmem => absurd hmem (List.not_mem_nil op))
  refine ⟨?_, ?_, ?_, ?_⟩
  · intro g tq hge
    exact (add_gate_eq_none qc' g tq).mpr (by rw [hn2]; exact hge)
  · intro c tq hor
    exact (cnot_eq_none qc' c tq).mpr (by rw [hn2]; exact hor)
  · intro op qs hle
    simp [runOps, List.getElem?_eq_none hle]
  · intro qs hq
    obtain ⟨out, hout⟩ :=
      @runOps_total qc'.operations qs
        (fun op hm => by rw [hq, ← hn2]; exact (hwf' op hm).1)
    simp [QuantumCircuit.execute, hq, hn2, hout]

/-- C9 witness: the circuit built by `h(0)` on one qubit executes without
hitting any out-of-bounds access. -/
theorem execute_inbounds_witness :
    QuantumCircuit.execute ⟨1, [GateOp.new QuantumGate.H 0 0]⟩ [Qubit.zero] ≠
      none :=
  (execute_inbounds 1 [BuilderCall.h 0] ⟨1, [GateOp.new QuantumGate.H 0 0]⟩
    rfl).2.2.2 [Qubit.zero] rfl

/-- C10: `display` on a circuit constructed with `new(0)` aborts — the
line-buffer height `2 * num_qubits - 1` underflows in unsigned
arithmetic — while for `num_qubits ≥ 1` it only produces `2·num_qubits -
1` empty lines (it is a pure read of the circuit). -/
theorem display_underflow (qc : QuantumCircuit) :
    (QuantumCircuit.new 0).display = none ∧
    (1 ≤ qc.num_qubits →
      qc.display = some (List.replicate (2 * qc.num_qubits - 1) "")) := by
  refine ⟨rfl, fun h1 => ?_⟩
  exact if_neg (by omega)

/-- C10 witness: a one-qubit circuit's display is a single empty line. -/
theorem display_underflow_witness :
    (QuantumCircuit.new 1).display =
      some (List.replicate (2 * (QuantumCircuit.new 1).num_qubits - 1) "") :=
  (display_underflow (QuantumCircuit.new 1)).2 (by decide)

end Intrico
